import Mathlib

/-!
# Verification of the testsvm address registry and PDA derivation subsystem

A shallow embedding, in Lean 4, of the `address-book` crate of the `testsvm`
repository: the `AddressBook` registry (`address_book.rs`), the registered
address data model (`registered_address.rs`), the PDA derivation helpers
(`pda_seeds.rs`) and the text rewriter (`AddressBook::replace_addresses_in_text`).

Conventions of the embedding:
* Rust `u8` bytes are `Nat` values (no arithmetic here can overflow);
  a Solana `Pubkey` is its byte sequence, a `List Nat`.
* Rust `String` values are `List Char` (`Str` below), so that the substring
  replacement of the text rewriter can be reasoned about structurally.
* Fallible Rust code returns `Except`/`Option`; a Rust panic is modelled as
  `Option.none` of the corresponding operation, since the panicking function's
  Rust return type has no failure variant.
* The base58 rendering used by `Pubkey`'s `Display` and the `hex` crate's
  encoding are external collaborators of the repository; the spec calls them
  the key's "canonical textual encoding" and the "lowercase hexadecimal
  encoding".  They are implemented here concretely (genuine base58 / hex) so
  that every definition is executable.
-/

/-- Rust `String`, modelled as a list of characters. -/
abbrev Str := List Char

/-- A Solana public key: its sequence of bytes (32 bytes for genuine keys). -/
abbrev Pubkey := List Nat

/-! ## Canonical textual encodings (external collaborators)

`Pubkey::to_string` is bs58 encoding of the 32 key bytes; `hex::encode` is
lowercase hexadecimal.  Both are implemented concretely. -/

/-- The bitcoin base58 alphabet used by bs58 (and hence by `Pubkey::to_string`). -/
def base58Alphabet : Str :=
  "123456789ABCDEFGHJKLMNPQRSTUVWXYZabcdefghijkmnopqrstuvwxyz".data

/-- The base58 digit character for a value in `0..57`. -/
def b58digit (n : Nat) : Char := base58Alphabet.getD n '?'

/-- Big-endian base58 digits of `n` (empty for `0`).  The first argument is
fuel; `n` itself is always sufficient fuel since a number has at most as many
base58 digits as its own magnitude. -/
def natToB58Aux : Nat → Nat → Str
  | 0, _ => []
  | fuel + 1, n =>
    if n = 0 then []
    else natToB58Aux fuel (n / 58) ++ [b58digit (n % 58)]

/-- Big-endian base58 digits of `n` (empty for `0`). -/
def natToB58 (n : Nat) : Str := natToB58Aux n n

/-- bs58 encoding of a byte sequence: one `'1'` per leading zero byte, then the
base58 digits of the remaining bytes read as a big-endian number. -/
def base58Encode (bytes : List Nat) : Str :=
  (bytes.takeWhile (fun b => b = 0)).map (fun _ => '1')
    ++ natToB58 (bytes.foldl (fun acc b => acc * 256 + b) 0)

/-- `Pubkey::to_string()`: the canonical textual (base58) encoding of the key. -/
def pubkeyToString (k : Pubkey) : Str := base58Encode k

/-- The lowercase hexadecimal digit for a value in `0..15`. -/
def hexDigit (n : Nat) : Char := "0123456789abcdef".data.getD n '?'

/-- `hex::encode`: lowercase hexadecimal encoding of raw bytes. -/
def hexEncode (bytes : List Nat) : Str :=
  (bytes.map (fun b => [hexDigit (b / 16), hexDigit (b % 16)])).flatten

/-- `u8::is_ascii_graphic(b) || b == b' '`: printable ASCII per
`seed_to_string`'s check (graphic character `0x21..=0x7E`, or space `0x20`). -/
def isPrintableByte (b : Nat) : Bool := (33 ≤ b && b ≤ 126) || b = 32

/-- Decoding of (printable ASCII) bytes as a string, byte per character:
`std::str::from_utf8`, which always succeeds on ASCII input. -/
def asciiDecode (bytes : List Nat) : Str := bytes.map Char.ofNat

/-- `seed_to_string` (`pda_seeds.rs`): all printable ASCII ⇒ decode verbatim;
else length exactly 32 ⇒ base58 key encoding; else lowercase hex. -/
def seedToString (s : List Nat) : Str :=
  if s.all isPrintableByte then asciiDecode s
  else if s.length = 32 then base58Encode s
  else hexEncode s

/-! ## PDA derivation (`pda_seeds.rs`)

The repository's derivation functions are wrappers around the Solana SDK's
`Pubkey::find_program_address`.  Modelled from the spec: the namespace-keyed
hash ("compute the namespace-keyed hash of `(seeds..., candidate)`") and the
curve-membership predicate ("not a member of the reserved elliptic-curve
subgroup") are provided primitives external to the repository, so they are a
parameter `DerivePrimitive` of every derivation definition; the bounded
discriminator search itself ("try discriminator candidates from 255 down to 0;
accept the first candidate whose resulting point is not a member of the
reserved subgroup"; "each individual seed's byte length not exceed 32 bytes")
is modelled faithfully to the spec's algorithm. -/
structure DerivePrimitive where
  hash : List (List Nat) → Pubkey → Pubkey
  isOnCurve : Pubkey → Bool

/-- Error type of the SDK-level `create_program_address` attempt. -/
inductive PdaError where
  | maxSeedLengthExceeded
  | invalidSeeds
deriving DecidableEq

/-- One candidate attempt: reject any seed longer than 32 bytes before hashing;
hash the seeds under the program id; reject a candidate that lands on the
reserved curve subgroup. -/
def createProgramAddress (P : DerivePrimitive) (seeds : List (List Nat))
    (programId : Pubkey) : Except PdaError Pubkey :=
  if seeds.any (fun s => 32 < s.length) then .error .maxSeedLengthExceeded
  else
    let candidate := P.hash seeds programId
    if P.isOnCurve candidate then .error .invalidSeeds else .ok candidate

/-- The discriminator search over a list of remaining bump candidates: an
on-curve candidate means "try the next bump"; a seed-length failure aborts the
whole search with no result. -/
def tryFindLoop (P : DerivePrimitive) (seeds : List (List Nat))
    (programId : Pubkey) : List Nat → Option (Pubkey × Nat)
  | [] => none
  | bump :: rest =>
    match createProgramAddress P (seeds ++ [[bump]]) programId with
    | .ok address => some (address, bump)
    | .error .invalidSeeds => tryFindLoop P seeds programId rest
    | .error .maxSeedLengthExceeded => none

/-- The 256 bump candidates, from 255 down to 0. -/
def bumpCandidates : List Nat := (List.range 256).reverse

/-- The SDK's `try_find_program_address`: the bounded 256-candidate search. -/
def tryFindProgramAddress (P : DerivePrimitive) (seeds : List (List Nat))
    (programId : Pubkey) : Option (Pubkey × Nat) :=
  tryFindLoop P seeds programId bumpCandidates

/-- The SDK's `find_program_address`, which unwraps `try_find_program_address`
and panics when the search fails.  `none` models that panic: the Rust return
type `(Pubkey, u8)` has no failure variant. -/
def findProgramAddress (P : DerivePrimitive) (seeds : List (List Nat))
    (programId : Pubkey) : Option (Pubkey × Nat) :=
  tryFindProgramAddress P seeds programId

/-- `find_pda_with_bump` (`pda_seeds.rs`): converts the seeds to byte slices
(identity here, a seed already being its bytes) and calls
`Pubkey::find_program_address`. -/
def findPdaWithBump (P : DerivePrimitive) (seeds : List (List Nat))
    (programId : Pubkey) : Option (Pubkey × Nat) :=
  findProgramAddress P seeds programId

/-- `DerivedPda` (`pda_seeds.rs`): derived key, bump, debug seed strings, and
the raw seed bytes. -/
structure DerivedPda where
  key : Pubkey
  bump : Nat
  seedStrings : List Str
  seeds : List (List Nat)
deriving DecidableEq

/-- `find_pda_with_bump_and_strings` (`pda_seeds.rs`): derive, then bundle the
result with `seed_to_string` renderings and owned copies of the seed bytes. -/
def findPdaWithBumpAndStrings (P : DerivePrimitive) (seeds : List (List Nat))
    (programId : Pubkey) : Option DerivedPda :=
  (findProgramAddress P seeds programId).map fun r =>
    { key := r.1, bump := r.2,
      seedStrings := seeds.map seedToString, seeds := seeds }

/-- `DerivedPda::verify` (`pda_seeds.rs`): re-derive from the stored raw seed
bytes with `Pubkey::find_program_address` and compare key and bump.  `none`
models the panic of the underlying SDK call. -/
def DerivedPda.verify (P : DerivePrimitive) (d : DerivedPda)
    (programId : Pubkey) : Option Bool :=
  (findProgramAddress P d.seeds programId).map fun r =>
    decide (d.key = r.1 ∧ d.bump = r.2)

/-! ## The registered-address data model (`registered_address.rs`) -/

/-- `AddressRole`: the closed role union. -/
inductive AddressRole where
  | wallet
  | mint
  | ata (mint : Pubkey) (owner : Pubkey)
  | pda (seeds : List Str) (programId : Pubkey) (bump : Nat)
  | program
  | custom (tag : Str)
deriving DecidableEq

/-- `RegisteredAddress`: a key together with its role (`registered_address.rs`;
the label is stored alongside it in the registry's indices). -/
structure RegisteredAddress where
  key : Pubkey
  role : AddressRole
deriving DecidableEq

/-! ## The `AddressBook` registry (`address_book.rs`)

`HashMap` fields are modelled as association lists and the `HashSet` as a
duplicate-free list; the single mutating operation `add` only ever inserts a
label that is not yet present, so association-list lookup agrees with the hash
map.  `add` returns the `Result` together with the post state (Rust mutates
`&mut self`); on failure the post state equals the pre state, mirroring the
zero-mutation early return. -/

/-- First-match association-list lookup (`HashMap::get`). -/
def alistGet {α β : Type} [DecidableEq α] (m : List (α × β)) (k : α) : Option β :=
  match m with
  | [] => none
  | (k', v) :: rest => if k' = k then some v else alistGet rest k

/-- `HashSet::insert`: add the element unless already present. -/
def insertSet {α : Type} [DecidableEq α] (s : List α) (x : α) : List α :=
  if x ∈ s then s else x :: s

/-- `self.addresses.entry(pubkey).or_default().push(entry)`: append the entry
to the key's vector, creating the vector if the key is new. -/
def pushEntry (m : List (Pubkey × List (Str × RegisteredAddress))) (k : Pubkey)
    (e : Str × RegisteredAddress) : List (Pubkey × List (Str × RegisteredAddress)) :=
  match m with
  | [] => [(k, [e])]
  | (k', v) :: rest =>
    if k' = k then (k', v ++ [e]) :: rest else (k', v) :: pushEntry rest k e

/-- The error type of `AddressBook::add`: the duplicate-label error, naming
the offending label (Rust formats it into an `anyhow` message). -/
inductive AddrBookError where
  | duplicateLabel (label : Str)
deriving DecidableEq

/-- `AddressBook` (`address_book.rs`): the three coupled indices. -/
structure AddressBook where
  addresses : List (Pubkey × List (Str × RegisteredAddress))
  registeredAddresses : List RegisteredAddress
  labels : List (Str × RegisteredAddress)
deriving DecidableEq

/-- `AddressBook::new()`. -/
def AddressBook.empty : AddressBook :=
  { addresses := [], registeredAddresses := [], labels := [] }

/-- `AddressBook::add` (`address_book.rs` lines 124-150): if the label is bound
to a registration with different key or role, fail with the duplicate-label
error and mutate nothing; if bound to an identical one, succeed without
mutation; otherwise insert into all three indices. -/
def AddressBook.add (b : AddressBook) (pubkey : Pubkey) (label : Str)
    (ra : RegisteredAddress) : Except AddrBookError Unit × AddressBook :=
  match alistGet b.labels label with
  | some existing =>
    if existing.key ≠ pubkey ∨ existing.role ≠ ra.role then
      (.error (.duplicateLabel label), b)
    else
      (.ok (), b)
  | none =>
    (.ok (),
      { addresses := pushEntry b.addresses pubkey (label, ra),
        registeredAddresses := insertSet b.registeredAddresses ra,
        labels := (label, ra) :: b.labels })

/-- The spec's `register(key, label, role)`: every convenience constructor
(`add_wallet`, `add_mint`, ...) calls `add` with a `RegisteredAddress` built
from the same key and the role. -/
def register (b : AddressBook) (key : Pubkey) (label : Str)
    (role : AddressRole) : Except AddrBookError Unit × AddressBook :=
  b.add key label { key := key, role := role }

/-- `AddressBook::get`. -/
def AddressBook.get (b : AddressBook) (pubkey : Pubkey) :
    Option (List (Str × RegisteredAddress)) :=
  alistGet b.addresses pubkey

/-- `AddressBook::get_first`. -/
def AddressBook.getFirst (b : AddressBook) (pubkey : Pubkey) :
    Option (Str × RegisteredAddress) :=
  (alistGet b.addresses pubkey).bind List.head?

/-- `AddressBook::get_label`: the first registration's label, or the key's own
textual encoding. -/
def AddressBook.getLabel (b : AddressBook) (pubkey : Pubkey) : Str :=
  match (alistGet b.addresses pubkey).bind List.head? with
  | some e => e.1
  | none => pubkeyToString pubkey

/-- `AddressBook::contains`. -/
def AddressBook.contains (b : AddressBook) (pubkey : Pubkey) : Bool :=
  (alistGet b.addresses pubkey).isSome

/-! ## The text rewriter (`AddressBook::replace_addresses_in_text`)

Rust's `str::replace(pattern, replacement)`: scan left to right, replacing
every non-overlapping occurrence of the pattern greedily.  Implemented with
explicit fuel (the text length bounds the number of scan steps) so that the
definition evaluates inside the kernel.  The styled replacement written by the
code is the primary label wrapped in terminal color codes; the spec calls the
styling cosmetic metadata, and the embedding renders it with colors disabled,
i.e. the replacement is the label itself. -/
def replaceGo (p r : Str) : Nat → Str → Str
  | 0, t => t
  | _ + 1, [] => []
  | fuel + 1, c :: t =>
    if p.isPrefixOf (c :: t) then r ++ replaceGo p r fuel ((c :: t).drop p.length)
    else c :: replaceGo p r fuel t

/-- `str::replace` for a nonempty pattern (every pattern used by the rewriter
is a base58 key encoding, hence nonempty; an empty pattern leaves the text
unchanged here). -/
def replaceAll (t p r : Str) : Str :=
  if p.isEmpty then t else replaceGo p r t.length t

/-- The rewriter's comparator: `sort_by_key(|(pubkey, _)| Reverse(pubkey.to_string().len()))`,
i.e. descending length of the canonical textual encoding. -/
def encLenGE (x y : Pubkey × List (Str × RegisteredAddress)) : Prop :=
  (pubkeyToString y.1).length ≤ (pubkeyToString x.1).length

instance : DecidableRel encLenGE := fun x y =>
  inferInstanceAs (Decidable ((pubkeyToString y.1).length ≤ (pubkeyToString x.1).length))

/-- `AddressBook::replace_addresses_in_text` (`address_book.rs` lines 598-621):
sort the registered keys by descending encoding length, then sequentially
replace each key's encoding by its primary label. -/
def AddressBook.replaceAddressesInText (b : AddressBook) (text : Str) : Str :=
  (b.addresses.insertionSort encLenGE).foldl
    (fun result kv =>
      match kv.2.head? with
      | some e => replaceAll result (pubkeyToString kv.1) e.1
      | none => result)
    text

/-! ## Reachable registry states and their invariant -/

/-- All labels stored in the `by_key` vectors, in storage order. -/
def allEntryLabels (m : List (Pubkey × List (Str × RegisteredAddress))) : List Str :=
  (m.map (fun kv => kv.2.map Prod.fst)).flatten

/-- The coupling invariant of the three indices: the labels stored in the
`by_key` vectors are exactly (up to order) the keys of the label index, the
label index binds each label at most once, every stored vector is nonempty,
and the key index binds each key at most once. -/
def BookInv (b : AddressBook) : Prop :=
  (allEntryLabels b.addresses).Perm (b.labels.map Prod.fst) ∧
  (b.labels.map Prod.fst).Nodup ∧
  (∀ kv ∈ b.addresses, kv.2 ≠ []) ∧
  (b.addresses.map Prod.fst).Nodup

/-- Registry states reachable from `AddressBook::new()` by `add` calls (every
public mutation of the book, `find_pda_with_bump` and the convenience
constructors included, goes through `add`). -/
inductive Reachable : AddressBook → Prop where
  | empty : Reachable AddressBook.empty
  | step (b : AddressBook) (k : Pubkey) (l : Str) (ra : RegisteredAddress) :
      Reachable b → Reachable (b.add k l ra).2


/-! ## Concrete keys with nested encodings

Two genuine 32-byte keys whose canonical encodings nest: `nestKeyShort`
encodes to 31 ones followed by `z` (32 characters), which occurs inside the
44-character encoding of `nestKeyLong` (the byte values below were chosen so
that the base58 digit string of `nestKeyLong` contains `nestKeyShort`'s
encoding as a substring).  They exercise the rewriter's overlapping-encoding
case on real key material. -/
def nestKeyShort : Pubkey := List.replicate 31 0 ++ [57]

def nestKeyLong : Pubkey :=
  [0, 65, 148, 175, 231, 78, 133, 93, 28, 233, 178, 204, 191, 75, 145, 184,
   41, 173, 240, 114, 73, 153, 140, 59, 17, 56, 92, 31, 53, 52, 89, 247]

/-! ## Helper lemmas about the association-list operations -/

theorem alistGet_eq_none_iff {α β : Type} [DecidableEq α] (m : List (α × β)) (k : α) :
    alistGet m k = none ↔ k ∉ m.map Prod.fst := by
  induction m with
  | nil => simp [alistGet]
  | cons kv rest ih =>
    rw [show kv = (kv.1, kv.2) from rfl, alistGet]
    by_cases h : kv.1 = k
    · subst h
      simp
    · simp only [h, if_false, ih, List.map_cons, List.mem_cons]
      constructor
      · intro hn hmem
        rcases hmem with h1 | h2
        · exact h h1.symm
        · exact hn h2
      · intro hn h2
        exact hn (Or.inr h2)

theorem alistGet_mem {α β : Type} [DecidableEq α] (m : List (α × β)) (k : α) (v : β)
    (h : alistGet m k = some v) : (k, v) ∈ m := by
  induction m with
  | nil => simp [alistGet] at h
  | cons kv rest ih =>
    by_cases hk : kv.1 = k
    · rw [show kv = (kv.1, kv.2) from rfl, alistGet] at h
      simp [hk] at h
      subst hk h
      simp
    · rw [show kv = (kv.1, kv.2) from rfl, alistGet] at h
      simp [hk] at h
      exact List.mem_cons_of_mem _ (ih h)

theorem mem_insertSet {α : Type} [DecidableEq α] (s : List α) (x : α) :
    x ∈ insertSet s x := by
  unfold insertSet
  split
  · assumption
  · simp

theorem alistGet_pushEntry_self (m : List (Pubkey × List (Str × RegisteredAddress)))
    (k : Pubkey) (e : Str × RegisteredAddress) :
    alistGet (pushEntry m k e) k = some ((alistGet m k).getD [] ++ [e]) := by
  induction m with
  | nil => simp [pushEntry, alistGet]
  | cons kv rest ih =>
    by_cases hk : kv.1 = k
    · rw [show kv = (kv.1, kv.2) from rfl, pushEntry]
      simp [hk, alistGet]
    · rw [show kv = (kv.1, kv.2) from rfl, pushEntry]
      simp only [hk, if_false, alistGet, ih]

theorem alistGet_pushEntry_ne (m : List (Pubkey × List (Str × RegisteredAddress)))
    (k k' : Pubkey) (e : Str × RegisteredAddress) (h : k' ≠ k) :
    alistGet (pushEntry m k e) k' = alistGet m k' := by
  induction m with
  | nil => simp [pushEntry, alistGet, Ne.symm h]
  | cons kv rest ih =>
    by_cases hk : kv.1 = k
    · rw [show kv = (kv.1, kv.2) from rfl, pushEntry]
      simp only [hk, if_true, alistGet]
      simp [Ne.symm h]
    · rw [show kv = (kv.1, kv.2) from rfl, pushEntry]
      simp only [hk, if_false, alistGet, ih]

/-- Unfolding of `add` when the label is not yet bound. -/
theorem add_of_label_absent (b : AddressBook) (k : Pubkey) (l : Str)
    (ra : RegisteredAddress) (h : alistGet b.labels l = none) :
    b.add k l ra =
      (.ok (), { addresses := pushEntry b.addresses k (l, ra),
                 registeredAddresses := insertSet b.registeredAddresses ra,
                 labels := (l, ra) :: b.labels }) := by
  unfold AddressBook.add
  rw [h]

/-- Unfolding of `add` when the label is bound to a conflicting registration. -/
theorem add_of_label_conflict (b : AddressBook) (k : Pubkey) (l : Str)
    (ra ex : RegisteredAddress) (h : alistGet b.labels l = some ex)
    (hc : ex.key ≠ k ∨ ex.role ≠ ra.role) :
    b.add k l ra = (.error (.duplicateLabel l), b) := by
  unfold AddressBook.add
  rw [h]
  simp [hc]

/-- Unfolding of `add` when the label is bound to the identical registration. -/
theorem add_of_label_identical (b : AddressBook) (k : Pubkey) (l : Str)
    (ra ex : RegisteredAddress) (h : alistGet b.labels l = some ex)
    (hk : ex.key = k) (hr : ex.role = ra.role) :
    b.add k l ra = (.ok (), b) := by
  unfold AddressBook.add
  rw [h]
  simp [hk, hr]

/-! ## C1: the three-way case split of `register` -/

/-- C1: for every registry state and call `register(key, label, role)`:
an unused label ⇒ `Ok` and insertion into all three indices; a label bound to
a different `(key, role)` ⇒ the duplicate-label error naming the label, with
the state unchanged; a label bound to the identical `(key, role)` ⇒ `Ok` with
the state unchanged (idempotent re-registration). -/
theorem c1_register_semantics (b : AddressBook) (key : Pubkey) (label : Str)
    (role : AddressRole) :
    (alistGet b.labels label = none →
      (register b key label role).1 = .ok () ∧
      (register b key label role).2 =
        { addresses := pushEntry b.addresses key (label, ⟨key, role⟩),
          registeredAddresses := insertSet b.registeredAddresses ⟨key, role⟩,
          labels := (label, ⟨key, role⟩) :: b.labels } ∧
      alistGet (register b key label role).2.labels label = some ⟨key, role⟩ ∧
      (⟨key, role⟩ : RegisteredAddress) ∈ (register b key label role).2.registeredAddresses ∧
      (label, (⟨key, role⟩ : RegisteredAddress)) ∈ ((register b key label role).2.get key).getD []) ∧
    (∀ ex : RegisteredAddress, alistGet b.labels label = some ex →
      ex.key ≠ key ∨ ex.role ≠ role →
      register b key label role = (.error (.duplicateLabel label), b)) ∧
    (∀ ex : RegisteredAddress, alistGet b.labels label = some ex →
      ex.key = key → ex.role = role →
      register b key label role = (.ok (), b)) := by
  refine ⟨?_, ?_, ?_⟩
  · intro h
    unfold register
    rw [add_of_label_absent b key label ⟨key, role⟩ h]
    refine ⟨rfl, rfl, ?_, mem_insertSet _ _, ?_⟩
    · simp [alistGet]
    · simp only [AddressBook.get, alistGet_pushEntry_self]
      simp
  · intro ex h hc
    exact add_of_label_conflict b key label ⟨key, role⟩ ex h hc
  · intro ex h hk hr
    exact add_of_label_identical b key label ⟨key, role⟩ ex h hk hr

/-- Witness for C1: all three cases exercised on concrete registrations. -/
theorem c1_register_semantics_witness :
    (register AddressBook.empty [1] ['x'] .wallet).1 = .ok () ∧
    register (register AddressBook.empty [1] ['x'] .wallet).2 [2] ['x'] .wallet =
      (.error (.duplicateLabel ['x']), (register AddressBook.empty [1] ['x'] .wallet).2) ∧
    register (register AddressBook.empty [1] ['x'] .wallet).2 [1] ['x'] .wallet =
      (.ok (), (register AddressBook.empty [1] ['x'] .wallet).2) := by
  refine ⟨((c1_register_semantics AddressBook.empty [1] ['x'] .wallet).1 (by decide)).1,
    (c1_register_semantics _ [2] ['x'] .wallet).2.1 ⟨[1], .wallet⟩ (by decide) (by decide),
    (c1_register_semantics _ [1] ['x'] .wallet).2.2 ⟨[1], .wallet⟩ (by decide) (by decide) (by decide)⟩

/-! ## C3: determinism of derivation -/

/-- C3: PDA derivation is a pure, deterministic function of the seed sequence
and the program id: two calls on identical inputs return identical results.
The embedded functions take nothing but the derivation primitive (itself a
fixed function), the seeds and the namespace — mirroring the Rust signatures,
which consult no global state, randomness or clock. -/
theorem c3_derivation_deterministic (P : DerivePrimitive) (S : List (List Nat))
    (N : Pubkey) :
    findPdaWithBump P S N = findPdaWithBump P S N ∧
    findPdaWithBumpAndStrings P S N = findPdaWithBumpAndStrings P S N :=
  ⟨rfl, rfl⟩

/-! ## C9: the `seed_to_string` priority order -/

/-- C9: `seed_to_string` returns printable-ASCII bytes decoded verbatim; else,
for byte length exactly 32, the canonical base58 key encoding; else the
lowercase hexadecimal encoding. -/
theorem c9_seed_to_string_priority (s : List Nat) :
    (s.all isPrintableByte = true → seedToString s = asciiDecode s) ∧
    (s.all isPrintableByte = false → s.length = 32 → seedToString s = base58Encode s) ∧
    (s.all isPrintableByte = false → s.length ≠ 32 → seedToString s = hexEncode s) := by
  unfold seedToString
  refine ⟨fun h => ?_, fun h hl => ?_, fun h hl => ?_⟩
  · simp [h]
  · simp [h, hl]
  · simp [h, hl]

/-- Witness for C9: the three priority cases on concrete seeds: the bytes of
`"vault"`, a 32-byte non-printable seed, and a 3-byte non-printable seed. -/
theorem c9_seed_to_string_priority_witness :
    seedToString [118, 97, 117, 108, 116] = asciiDecode [118, 97, 117, 108, 116] ∧
    seedToString (List.replicate 32 0) = base58Encode (List.replicate 32 0) ∧
    seedToString [1, 2, 255] = hexEncode [1, 2, 255] :=
  ⟨(c9_seed_to_string_priority _).1 (by decide),
   (c9_seed_to_string_priority _).2.1 (by decide) (by decide),
   (c9_seed_to_string_priority _).2.2 (by decide) (by decide)⟩

/-! ## C4: derivation failure is a panic, not a returned error -/

theorem tryFindLoop_oversized (P : DerivePrimitive) (seeds : List (List Nat))
    (pid : Pubkey) (bumps : List Nat) (h : ∃ s ∈ seeds, 32 < s.length) :
    tryFindLoop P seeds pid bumps = none := by
  cases bumps with
  | nil => rfl
  | cons bump rest =>
    have hany : ((seeds ++ [[bump]]).any fun s => 32 < s.length) = true := by
      rcases h with ⟨s, hs, hlen⟩
      simp only [List.any_append, Bool.or_eq_true, List.any_eq_true]
      exact Or.inl ⟨s, hs, by simpa using hlen⟩
    unfold tryFindLoop createProgramAddress
    rw [hany]
    rfl

theorem tryFindLoop_all_on_curve (P : DerivePrimitive) (seeds : List (List Nat))
    (pid : Pubkey) (bumps : List Nat)
    (h : ∀ bump ∈ bumps, P.isOnCurve (P.hash (seeds ++ [[bump]]) pid) = true) :
    tryFindLoop P seeds pid bumps = none := by
  induction bumps with
  | nil => rfl
  | cons bump rest ih =>
    unfold tryFindLoop createProgramAddress
    by_cases hover : ((seeds ++ [[bump]]).any fun s => 32 < s.length) = true
    · rw [hover]
      rfl
    · rw [Bool.not_eq_true] at hover
      rw [hover]
      simp only [Bool.false_eq_true, if_false]
      rw [h bump (List.mem_cons_self _ _)]
      exact ih fun b hb => h b (List.mem_cons_of_mem _ hb)

/-- C4 (amended): a derivation input with any seed longer than 32 bytes, or on
which every one of the 256 bump candidates is rejected as on-curve, makes
`find_pda_with_bump` / `find_pda_with_bump_and_strings` abort — modelled as
`none`, the panic of the SDK's `find_program_address` unwrap — rather than
return a typed failure: the Rust return types `(Pubkey, u8)` and `DerivedPda`
have no failure variant.  The failure is representable only one level down, in
`try_find_program_address`. -/
theorem c4_derivation_aborts (P : DerivePrimitive) (seeds : List (List Nat))
    (pid : Pubkey)
    (h : (∃ s ∈ seeds, 32 < s.length) ∨
      ∀ bump ∈ bumpCandidates, P.isOnCurve (P.hash (seeds ++ [[bump]]) pid) = true) :
    findPdaWithBump P seeds pid = none ∧
    findPdaWithBumpAndStrings P seeds pid = none := by
  have hnone : tryFindProgramAddress P seeds pid = none := by
    rcases h with h | h
    · exact tryFindLoop_oversized P seeds pid bumpCandidates h
    · exact tryFindLoop_all_on_curve P seeds pid bumpCandidates h
  refine ⟨hnone, ?_⟩
  unfold findPdaWithBumpAndStrings findProgramAddress
  rw [hnone]
  rfl

set_option maxRecDepth 8000 in
/-- Witness for C4 (amended): a primitive whose curve test rejects every
candidate drives both derivation operations into the aborting case. -/
theorem c4_derivation_aborts_witness :
    findPdaWithBump ⟨fun _ _ => [0], fun _ => true⟩ [[1]] [2] = none ∧
    findPdaWithBumpAndStrings ⟨fun _ _ => [0], fun _ => true⟩ [[1]] [2] = none :=
  c4_derivation_aborts ⟨fun _ _ => [0], fun _ => true⟩ [[1]] [2] (Or.inr (by decide))

set_option maxRecDepth 8000 in
/-- Counterexample for C4 as stated: a seed list containing a 33-byte seed is a
derivation failure condition, yet `find_pda_with_bump` and
`find_pda_with_bump_and_strings` do not return a representable failure outcome
for it — they abort (`none` models the panic inside the SDK's
`find_program_address`, the only failure behaviour available to a Rust return
type with no failure variant). -/
theorem c4_counterexample :
    findPdaWithBump ⟨fun _ _ => [0], fun _ => false⟩ [List.replicate 33 0] [0] = none ∧
    findPdaWithBumpAndStrings ⟨fun _ _ => [0], fun _ => false⟩ [List.replicate 33 0] [0] = none := by
  constructor
  · decide
  · decide

/-! ## C8: round-trip verification of a derived PDA -/

/-- C8: whenever `find_pda_with_bump_and_strings` returns a value,
`DerivedPda::verify` on it succeeds (re-deriving from the stored raw seed
bytes reproduces the stored key and bump exactly), and its key and bump
components equal `find_pda_with_bump`'s result — the stored debug seed strings
are computed on the side and never influence the derived address. -/
theorem c8_roundtrip_verify (P : DerivePrimitive) (S : List (List Nat))
    (pid : Pubkey) (d : DerivedPda)
    (h : findPdaWithBumpAndStrings P S pid = some d) :
    DerivedPda.verify P d pid = some true ∧
    findPdaWithBump P S pid = some (d.key, d.bump) ∧
    d.seeds = S ∧ d.seedStrings = S.map seedToString := by
  unfold findPdaWithBumpAndStrings at h
  cases hfp : findProgramAddress P S pid with
  | none =>
    rw [hfp] at h
    simp at h
  | some r =>
    rw [hfp] at h
    have hd : DerivedPda.mk r.1 r.2 (S.map seedToString) S = d := by
      simpa using h
    subst hd
    refine ⟨?_, hfp, rfl, rfl⟩
    unfold DerivedPda.verify
    simp [hfp]

/-- Witness for C8: a concrete two-field primitive, one seed, one program id. -/
theorem c8_roundtrip_verify_witness :
    DerivedPda.verify ⟨fun s pid => [s.length + pid.length], fun _ => false⟩
      ⟨[3], 255, [['0', '7']], [[7]]⟩ [3] = some true ∧
    findPdaWithBump ⟨fun s pid => [s.length + pid.length], fun _ => false⟩ [[7]] [3] =
      some (([3] : Pubkey), 255) ∧
    (⟨[3], 255, [['0', '7']], [[7]]⟩ : DerivedPda).seeds = [[7]] ∧
    (⟨[3], 255, [['0', '7']], [[7]]⟩ : DerivedPda).seedStrings =
      [[7]].map seedToString := by
  have T := c8_roundtrip_verify ⟨fun s pid => [s.length + pid.length], fun _ => false⟩
    [[7]] [3] ⟨[3], 255, [['0', '7']], [[7]]⟩ (by decide)
  exact ⟨T.1, T.2.1, T.2.2.1, T.2.2.2⟩

/-! ## C7: multiple registrations per key, in insertion order -/

/-- C7: registering the same key under two distinct unused labels succeeds both
times, and afterwards `get` returns the key's registrations in insertion order:
whatever was there before, then the first-registered `(L1, role1)`, then
`(L2, role2)` — so the `L1` registration sits strictly before the `L2` one, and
first overall when the key was previously unregistered. -/
theorem c7_multi_role_key (b : AddressBook) (K : Pubkey) (L1 L2 : Str)
    (r1 r2 : AddressRole) (hne : L1 ≠ L2)
    (h1 : alistGet b.labels L1 = none) (h2 : alistGet b.labels L2 = none) :
    (register b K L1 r1).1 = .ok () ∧
    (register (register b K L1 r1).2 K L2 r2).1 = .ok () ∧
    (register (register b K L1 r1).2 K L2 r2).2.get K =
      some ((b.get K).getD [] ++ [(L1, ⟨K, r1⟩), (L2, ⟨K, r2⟩)]) ∧
    (b.contains K = false →
      (register (register b K L1 r1).2 K L2 r2).2.get K =
        some [(L1, ⟨K, r1⟩), (L2, ⟨K, r2⟩)]) := by
  have e1 : register b K L1 r1 = _ := add_of_label_absent b K L1 ⟨K, r1⟩ h1
  have h2' : alistGet (register b K L1 r1).2.labels L2 = none := by
    rw [e1]
    simp only [alistGet]
    rw [if_neg hne]
    exact h2
  have e2 : register (register b K L1 r1).2 K L2 r2 = _ :=
    add_of_label_absent (register b K L1 r1).2 K L2 ⟨K, r2⟩ h2'
  have hget : (register (register b K L1 r1).2 K L2 r2).2.get K =
      some ((b.get K).getD [] ++ [(L1, ⟨K, r1⟩), (L2, ⟨K, r2⟩)]) := by
    rw [e2]
    show alistGet (pushEntry (register b K L1 r1).2.addresses K (L2, ⟨K, r2⟩)) K = _
    rw [alistGet_pushEntry_self, e1]
    show some ((alistGet (pushEntry b.addresses K (L1, ⟨K, r1⟩)) K).getD [] ++ _) = _
    rw [alistGet_pushEntry_self]
    simp [AddressBook.get]
  refine ⟨?_, ?_, hget, ?_⟩
  · rw [e1]
  · rw [e2]
  · intro hc
    rw [hget]
    have : alistGet b.addresses K = none := by
      unfold AddressBook.contains at hc
      cases hh : alistGet b.addresses K with
      | none => rfl
      | some v => rw [hh] at hc; simp at hc
    simp [AddressBook.get, this]

/-- Witness for C7: one key registered as a wallet under `"a"` and then as a
mint under `"b"`, starting from the empty book. -/
theorem c7_multi_role_key_witness :
    (register AddressBook.empty [5] ['a'] .wallet).1 = .ok () ∧
    (register (register AddressBook.empty [5] ['a'] .wallet).2 [5] ['b'] .mint).1 = .ok () ∧
    (register (register AddressBook.empty [5] ['a'] .wallet).2 [5] ['b'] .mint).2.get [5] =
      some ((AddressBook.empty.get [5]).getD [] ++
        [(['a'], ⟨[5], .wallet⟩), (['b'], ⟨[5], .mint⟩)]) ∧
    (register (register AddressBook.empty [5] ['a'] .wallet).2 [5] ['b'] .mint).2.get [5] =
      some [(['a'], ⟨[5], .wallet⟩), (['b'], ⟨[5], .mint⟩)] := by
  have T := c7_multi_role_key AddressBook.empty [5] ['a'] ['b'] .wallet .mint
    (by decide) (by decide) (by decide)
  exact ⟨T.1, T.2.1, T.2.2.1, T.2.2.2 (by decide)⟩

/-! ## The registry invariant on reachable states -/

theorem allEntryLabels_cons (kv : Pubkey × List (Str × RegisteredAddress))
    (m : List (Pubkey × List (Str × RegisteredAddress))) :
    allEntryLabels (kv :: m) = kv.2.map Prod.fst ++ allEntryLabels m := by
  simp [allEntryLabels]

theorem append_singleton_middle_perm {α : Type} (A B : List α) (x : α) :
    ((A ++ [x]) ++ B).Perm ((A ++ B) ++ [x]) := by
  rw [List.append_assoc, List.append_assoc]
  exact List.Perm.append_left A (List.perm_append_comm)

theorem allEntryLabels_pushEntry (m : List (Pubkey × List (Str × RegisteredAddress)))
    (k : Pubkey) (e : Str × RegisteredAddress) :
    (allEntryLabels (pushEntry m k e)).Perm (allEntryLabels m ++ [e.1]) := by
  induction m with
  | nil => simp [pushEntry, allEntryLabels]
  | cons kv rest ih =>
    by_cases hk : kv.1 = k
    · rw [show kv = (kv.1, kv.2) from rfl, pushEntry]
      simp only [hk, if_true]
      rw [allEntryLabels_cons, allEntryLabels_cons]
      simp only [List.map_append, List.map_cons, List.map_nil]
      exact append_singleton_middle_perm (kv.2.map Prod.fst) (allEntryLabels rest) e.1
    · rw [show kv = (kv.1, kv.2) from rfl, pushEntry]
      simp only [hk, if_false]
      rw [allEntryLabels_cons, allEntryLabels_cons, List.append_assoc]
      exact List.Perm.append_left _ ih

theorem pushEntry_keys_mem (m : List (Pubkey × List (Str × RegisteredAddress)))
    (k : Pubkey) (e : Str × RegisteredAddress) (h : k ∈ m.map Prod.fst) :
    (pushEntry m k e).map Prod.fst = m.map Prod.fst := by
  induction m with
  | nil => exact absurd h (List.not_mem_nil k)
  | cons kv rest ih =>
    by_cases hk : kv.1 = k
    · rw [show kv = (kv.1, kv.2) from rfl, pushEntry]
      simp [hk]
    · rw [show kv = (kv.1, kv.2) from rfl, pushEntry]
      simp only [hk, if_false, List.map_cons]
      rcases List.mem_cons.1 h with h1 | h2
      · exact absurd h1.symm hk
      · rw [ih h2]

theorem pushEntry_keys_not_mem (m : List (Pubkey × List (Str × RegisteredAddress)))
    (k : Pubkey) (e : Str × RegisteredAddress) (h : k ∉ m.map Prod.fst) :
    (pushEntry m k e).map Prod.fst = m.map Prod.fst ++ [k] := by
  induction m with
  | nil => rfl
  | cons kv rest ih =>
    rw [show kv = (kv.1, kv.2) from rfl, pushEntry]
    by_cases hk : kv.1 = k
    · exact absurd (List.mem_cons_self kv.1 _) (hk ▸ h)
    · simp only [hk, if_false, List.map_cons]
      rw [ih fun hmem => h (List.mem_cons_of_mem _ hmem), List.cons_append]

theorem pushEntry_nonempty (m : List (Pubkey × List (Str × RegisteredAddress)))
    (k : Pubkey) (e : Str × RegisteredAddress) (h : ∀ kv ∈ m, kv.2 ≠ []) :
    ∀ kv ∈ pushEntry m k e, kv.2 ≠ [] := by
  induction m with
  | nil =>
    intro kv hkv
    rcases List.mem_cons.1 hkv with h1 | h2
    · rw [h1]
      exact List.cons_ne_nil e []
    · exact absurd h2 (List.not_mem_nil kv)
  | cons kv0 rest ih =>
    rw [show kv0 = (kv0.1, kv0.2) from rfl, pushEntry]
    by_cases hk : kv0.1 = k
    · simp only [hk, if_true]
      intro kv hkv
      rcases List.mem_cons.1 hkv with h1 | h2
      · rw [h1]
        exact List.append_ne_nil_of_right_ne_nil _ (List.cons_ne_nil e [])
      · exact h kv (List.mem_cons_of_mem _ h2)
    · simp only [hk, if_false]
      intro kv hkv
      rcases List.mem_cons.1 hkv with h1 | h2
      · exact h kv (h1 ▸ List.mem_cons_self _ _)
      · exact ih (fun kv2 hkv2 => h kv2 (List.mem_cons_of_mem _ hkv2)) kv h2

theorem bookInv_empty : BookInv AddressBook.empty := by
  refine ⟨?_, ?_, ?_, ?_⟩ <;> simp [AddressBook.empty, allEntryLabels]

theorem bookInv_add (b : AddressBook) (k : Pubkey) (l : Str)
    (ra : RegisteredAddress) (h : BookInv b) : BookInv (b.add k l ra).2 := by
  cases hl : alistGet b.labels l with
  | some ex =>
    have hb : (b.add k l ra).2 = b := by
      by_cases hc : ex.key ≠ k ∨ ex.role ≠ ra.role
      · rw [add_of_label_conflict b k l ra ex hl hc]
      · push_neg at hc
        rw [add_of_label_identical b k l ra ex hl hc.1 hc.2]
    rw [hb]
    exact h
  | none =>
    rw [add_of_label_absent b k l ra hl]
    show BookInv { addresses := pushEntry b.addresses k (l, ra),
                   registeredAddresses := insertSet b.registeredAddresses ra,
                   labels := (l, ra) :: b.labels }
    obtain ⟨hperm, hnodup, hne, hkeys⟩ := h
    refine ⟨?_, ?_, ?_, ?_⟩
    · show (allEntryLabels (pushEntry b.addresses k (l, ra))).Perm
        (((l, ra) :: b.labels).map Prod.fst)
      simp only [List.map_cons]
      exact (allEntryLabels_pushEntry _ _ _).trans
        ((List.perm_append_singleton _ _).trans (hperm.cons l))
    · show (((l, ra) :: b.labels).map Prod.fst).Nodup
      simp only [List.map_cons]
      exact List.nodup_cons.2 ⟨(alistGet_eq_none_iff _ _).1 hl, hnodup⟩
    · exact pushEntry_nonempty _ _ _ hne
    · show ((pushEntry b.addresses k (l, ra)).map Prod.fst).Nodup
      by_cases hk : k ∈ b.addresses.map Prod.fst
      · rw [pushEntry_keys_mem _ _ _ hk]
        exact hkeys
      · rw [pushEntry_keys_not_mem _ _ _ hk]
        rw [List.nodup_append]
        refine ⟨hkeys, List.nodup_singleton k, ?_⟩
        intro a ha hb
        rw [List.mem_singleton] at hb
        exact hk (hb ▸ ha)

theorem reachable_inv (b : AddressBook) (h : Reachable b) : BookInv b := by
  induction h with
  | empty => exact bookInv_empty
  | step b k l ra _ ih => exact bookInv_add b k l ra ih

theorem contains_true_elim (b : AddressBook) (k : Pubkey) (hc : b.contains k = true) :
    ∃ v, alistGet b.addresses k = some v := by
  unfold AddressBook.contains at hc
  cases hh : alistGet b.addresses k with
  | none => rw [hh] at hc; exact absurd hc (by simp)
  | some v => exact ⟨v, rfl⟩

theorem contains_false_elim (b : AddressBook) (k : Pubkey) (hc : b.contains k = false) :
    alistGet b.addresses k = none := by
  unfold AddressBook.contains at hc
  cases hh : alistGet b.addresses k with
  | none => rfl
  | some v => rw [hh] at hc; exact absurd hc (by simp)

/-! ## C2: global label uniqueness over all call sequences -/

/-- C2: in every registry state reachable by `add`/`register` calls from the
empty book, the label index binds each label at most once and no two entries
stored across the `by_key` vectors carry the same label; and any call reusing
a bound label with a different `(key, role)` fails with the duplicate-label
error and returns the state unchanged. -/
theorem c2_label_uniqueness (b : AddressBook) (h : Reachable b) :
    (b.labels.map Prod.fst).Nodup ∧
    (allEntryLabels b.addresses).Nodup ∧
    (∀ (k : Pubkey) (l : Str) (ra ex : RegisteredAddress),
      alistGet b.labels l = some ex → ex.key ≠ k ∨ ex.role ≠ ra.role →
      b.add k l ra = (.error (.duplicateLabel l), b)) := by
  obtain ⟨hperm, hnodup, _, _⟩ := reachable_inv b h
  exact ⟨hnodup, hperm.nodup_iff.2 hnodup,
    fun k l ra ex hl hc => add_of_label_conflict b k l ra ex hl hc⟩

/-- Witness for C2: a one-registration book; re-using its label with another
key fails and returns the identical state. -/
theorem c2_label_uniqueness_witness :
    (((AddressBook.empty.add [1] ['x'] ⟨[1], .wallet⟩).2.labels.map Prod.fst).Nodup ∧
      (allEntryLabels (AddressBook.empty.add [1] ['x'] ⟨[1], .wallet⟩).2.addresses).Nodup) ∧
    (AddressBook.empty.add [1] ['x'] ⟨[1], .wallet⟩).2.add [2] ['x'] ⟨[2], .mint⟩ =
      (.error (.duplicateLabel ['x']), (AddressBook.empty.add [1] ['x'] ⟨[1], .wallet⟩).2) := by
  have T := c2_label_uniqueness (AddressBook.empty.add [1] ['x'] ⟨[1], .wallet⟩).2
    (Reachable.step _ _ _ _ Reachable.empty)
  exact ⟨⟨T.1, T.2.1⟩, T.2.2 [2] ['x'] ⟨[2], .mint⟩ ⟨[1], .wallet⟩ (by decide) (by decide)⟩

/-! ## C6: `get_label` is total and returns the first-inserted label -/

/-- C6: `get_label` never fails and never mutates (it is a plain function of
the book).  For an unregistered key it returns the key's canonical textual
encoding; registering a key for the first time under a fresh label makes
`get_label` return that label; and once a key is registered, no later `add`
call (for any key and label) changes what `get_label` returns for it — so the
returned label is always that of the first-inserted registration. -/
theorem c6_get_label_total :
    (∀ (b : AddressBook) (k : Pubkey), b.contains k = false →
      b.getLabel k = pubkeyToString k) ∧
    (∀ (b : AddressBook) (k : Pubkey) (l : Str) (ra : RegisteredAddress),
      b.contains k = false → alistGet b.labels l = none →
      (b.add k l ra).2.getLabel k = l) ∧
    (∀ (b : AddressBook) (k k2 : Pubkey) (l2 : Str) (ra2 : RegisteredAddress),
      Reachable b → b.contains k = true →
      (b.add k2 l2 ra2).2.getLabel k = b.getLabel k) := by
  refine ⟨?_, ?_, ?_⟩
  · intro b k hc
    have hn := contains_false_elim b k hc
    simp [AddressBook.getLabel, hn]
  · intro b k l ra hc hl
    have hn := contains_false_elim b k hc
    rw [add_of_label_absent b k l ra hl]
    show AddressBook.getLabel
      { addresses := pushEntry b.addresses k (l, ra),
        registeredAddresses := insertSet b.registeredAddresses ra,
        labels := (l, ra) :: b.labels } k = l
    simp [AddressBook.getLabel, alistGet_pushEntry_self, hn]
  · intro b k k2 l2 ra2 hr hc
    obtain ⟨v, hv⟩ := contains_true_elim b k hc
    have hvne : v ≠ [] := (reachable_inv b hr).2.2.1 (k, v) (alistGet_mem _ _ _ hv)
    cases hadd : alistGet b.labels l2 with
    | some ex =>
      have hb : (b.add k2 l2 ra2).2 = b := by
        by_cases hcf : ex.key ≠ k2 ∨ ex.role ≠ ra2.role
        · rw [add_of_label_conflict b k2 l2 ra2 ex hadd hcf]
        · push_neg at hcf
          rw [add_of_label_identical b k2 l2 ra2 ex hadd hcf.1 hcf.2]
      rw [hb]
    | none =>
      rw [add_of_label_absent b k2 l2 ra2 hadd]
      show AddressBook.getLabel
        { addresses := pushEntry b.addresses k2 (l2, ra2),
          registeredAddresses := insertSet b.registeredAddresses ra2,
          labels := (l2, ra2) :: b.labels } k = b.getLabel k
      by_cases hk : k2 = k
      · subst hk
        cases v with
        | nil => exact absurd rfl hvne
        | cons x t =>
          simp [AddressBook.getLabel, alistGet_pushEntry_self, hv]
      · simp [AddressBook.getLabel, alistGet_pushEntry_ne _ _ _ _ (Ne.symm hk)]

/-- Witness for C6: the fallback on the empty book, the first registration of
a key, and the stability of the first label under a later registration. -/
theorem c6_get_label_total_witness :
    AddressBook.empty.getLabel [1] = pubkeyToString [1] ∧
    (AddressBook.empty.add [1] ['a'] ⟨[1], .wallet⟩).2.getLabel [1] = ['a'] ∧
    ((AddressBook.empty.add [1] ['a'] ⟨[1], .wallet⟩).2.add [1] ['b'] ⟨[1], .mint⟩).2.getLabel [1] =
      (AddressBook.empty.add [1] ['a'] ⟨[1], .wallet⟩).2.getLabel [1] :=
  ⟨c6_get_label_total.1 AddressBook.empty [1] (by decide),
   c6_get_label_total.2.1 AddressBook.empty [1] ['a'] ⟨[1], .wallet⟩ (by decide) (by decide),
   c6_get_label_total.2.2 (AddressBook.empty.add [1] ['a'] ⟨[1], .wallet⟩).2 [1] [1] ['b']
     ⟨[1], .mint⟩ (Reachable.step _ _ _ _ Reachable.empty) (by decide)⟩

/-! ## C10: reachable `by_key` vectors are nonempty -/

/-- C10: in every reachable state, every key present in the key index maps to
a nonempty registration sequence, so `contains` holds exactly when `get_first`
returns a value; for a contained key `get_label` returns a label bound in the
label index, and the textual-encoding fallback is taken exactly for keys not
in the book. -/
theorem c10_contains_get_first (b : AddressBook) (h : Reachable b) (k : Pubkey) :
    (b.contains k = true ↔ (b.getFirst k).isSome = true) ∧
    (b.contains k = true → b.getLabel k ∈ b.labels.map Prod.fst) ∧
    (b.contains k = false → b.getLabel k = pubkeyToString k) := by
  obtain ⟨hperm, _, hne, _⟩ := reachable_inv b h
  refine ⟨⟨?_, ?_⟩, ?_, ?_⟩
  · intro hc
    obtain ⟨v, hv⟩ := contains_true_elim b k hc
    have hvne : v ≠ [] := hne (k, v) (alistGet_mem _ _ _ hv)
    cases v with
    | nil => exact absurd rfl hvne
    | cons x t => simp [AddressBook.getFirst, hv]
  · intro hg
    unfold AddressBook.getFirst at hg
    unfold AddressBook.contains
    cases hh : alistGet b.addresses k with
    | none => rw [hh] at hg; exact absurd hg (by simp)
    | some v => rfl
  · intro hc
    obtain ⟨v, hv⟩ := contains_true_elim b k hc
    have hvne : v ≠ [] := hne (k, v) (alistGet_mem _ _ _ hv)
    cases v with
    | nil => exact absurd rfl hvne
    | cons x t =>
      have hlabel : b.getLabel k = x.1 := by simp [AddressBook.getLabel, hv]
      rw [hlabel]
      have hxmem : x.1 ∈ allEntryLabels b.addresses := by
        refine List.mem_flatten.2 ⟨(x :: t).map Prod.fst, ?_,
          List.mem_map_of_mem Prod.fst (List.mem_cons_self x t)⟩
        exact List.mem_map_of_mem _ (alistGet_mem _ _ _ hv)
      exact hperm.subset hxmem
  · intro hc
    have hn := contains_false_elim b k hc
    simp [AddressBook.getLabel, hn]

/-- Witness for C10: a one-registration book, probed at the registered key and
at an absent key. -/
theorem c10_contains_get_first_witness :
    ((AddressBook.empty.add [1] ['a'] ⟨[1], .wallet⟩).2.contains [1] = true ↔
      ((AddressBook.empty.add [1] ['a'] ⟨[1], .wallet⟩).2.getFirst [1]).isSome = true) ∧
    (AddressBook.empty.add [1] ['a'] ⟨[1], .wallet⟩).2.getLabel [1] ∈
      (AddressBook.empty.add [1] ['a'] ⟨[1], .wallet⟩).2.labels.map Prod.fst ∧
    (AddressBook.empty.add [1] ['a'] ⟨[1], .wallet⟩).2.getLabel [9] = pubkeyToString [9] := by
  have T1 := c10_contains_get_first (AddressBook.empty.add [1] ['a'] ⟨[1], .wallet⟩).2
    (Reachable.step _ _ _ _ Reachable.empty) [1]
  have T9 := c10_contains_get_first (AddressBook.empty.add [1] ['a'] ⟨[1], .wallet⟩).2
    (Reachable.step _ _ _ _ Reachable.empty) [9]
  exact ⟨T1.1, T1.2.1 (by decide), T9.2.2 (by decide)⟩

/-! ## Lemmas about `str::replace` -/

theorem isEmpty_false_of_ne_nil (p : Str) (hp : p ≠ []) : p.isEmpty = false := by
  cases p with
  | nil => exact absurd rfl hp
  | cons c t => rfl

theorem length_pos_of_ne_nil (p : Str) (hp : p ≠ []) : 1 ≤ p.length := by
  cases p with
  | nil => exact absurd rfl hp
  | cons c t => simp

/-- The scan of `replaceGo` does not depend on the fuel, as long as the fuel
covers the text length. -/
theorem replaceGo_fuel (p r : Str) (hp : p ≠ []) :
    ∀ (fuel fuel2 : Nat) (t : Str), t.length ≤ fuel → t.length ≤ fuel2 →
      replaceGo p r fuel t = replaceGo p r fuel2 t := by
  intro fuel
  induction fuel with
  | zero =>
    intro fuel2 t ht ht2
    have hnil : t = [] := List.eq_nil_of_length_eq_zero (Nat.le_zero.1 ht)
    subst hnil
    cases fuel2 <;> rfl
  | succ f ih =>
    intro fuel2 t ht ht2
    cases t with
    | nil => cases fuel2 <;> rfl
    | cons c t2 =>
      cases fuel2 with
      | zero => exact absurd ht2 (by simp)
      | succ f2 =>
        simp only [replaceGo]
        by_cases hpre : p.isPrefixOf (c :: t2) = true
        · rw [if_pos hpre, if_pos hpre]
          have hp1 := length_pos_of_ne_nil p hp
          have hlen : ((c :: t2).drop p.length).length ≤ f := by
            rw [List.length_drop]
            simp only [List.length_cons]
            have : t2.length + 1 ≤ f + 1 := by simpa using ht
            omega
          have hlen2 : ((c :: t2).drop p.length).length ≤ f2 := by
            rw [List.length_drop]
            simp only [List.length_cons]
            have : t2.length + 1 ≤ f2 + 1 := by simpa using ht2
            omega
          rw [ih f2 _ hlen hlen2]
        · rw [if_neg hpre, if_neg hpre]
          have h1 : t2.length ≤ f := by simpa using Nat.le_of_succ_le_succ (by simpa using ht)
          have h2 : t2.length ≤ f2 := by simpa using Nat.le_of_succ_le_succ (by simpa using ht2)
          rw [ih f2 t2 h1 h2]

theorem replaceAll_nil (p r : Str) : replaceAll [] p r = [] := by
  unfold replaceAll
  split
  · rfl
  · rfl

/-- One scan step when the pattern matches at the head. -/
theorem replaceAll_pos (p r t : Str) (hp : p ≠ []) (hpre : p <+: t) :
    replaceAll t p r = r ++ replaceAll (t.drop p.length) p r := by
  have hpb : p.isPrefixOf t = true := List.isPrefixOf_iff_prefix.2 hpre
  cases t with
  | nil => exact absurd (List.prefix_nil.1 hpre) hp
  | cons c t2 =>
    unfold replaceAll
    rw [isEmpty_false_of_ne_nil p hp]
    simp only [Bool.false_eq_true, if_false, List.length_cons]
    simp only [replaceGo]
    rw [if_pos hpb]
    have hp1 := length_pos_of_ne_nil p hp
    have hlen : ((c :: t2).drop p.length).length ≤ t2.length := by
      rw [List.length_drop]
      simp only [List.length_cons]
      omega
    rw [replaceGo_fuel p r hp t2.length (((c :: t2).drop p.length).length) _ hlen (le_refl _)]

/-- One scan step when the pattern does not match at the head. -/
theorem replaceAll_neg (p r : Str) (c : Char) (t : Str) (hp : p ≠ [])
    (hpre : ¬ p <+: (c :: t)) :
    replaceAll (c :: t) p r = c :: replaceAll t p r := by
  have hpb : p.isPrefixOf (c :: t) = false :=
    Bool.eq_false_iff.2 fun h => hpre (List.isPrefixOf_iff_prefix.1 h)
  unfold replaceAll
  rw [isEmpty_false_of_ne_nil p hp]
  simp only [Bool.false_eq_true, if_false, List.length_cons]
  simp only [replaceGo]
  rw [hpb]
  simp only [Bool.false_eq_true, if_false]

/-- A text without any occurrence of the pattern is left unchanged. -/
theorem replaceAll_of_not_infix (p r t : Str) (hp : p ≠ []) (h : ¬ p <:+: t) :
    replaceAll t p r = t := by
  induction t with
  | nil => exact replaceAll_nil p r
  | cons c t2 ih =>
    have h1 : ¬ p <+: (c :: t2) := fun hpre => h hpre.isInfix
    rw [replaceAll_neg p r c t2 hp h1, ih fun hinf => h (List.infix_cons hinf)]

/-- Replacement around a designated first occurrence: if the pattern matches
nowhere strictly before the designated occurrence, the replacement substitutes
it and continues on the tail. -/
theorem replaceAll_split (p r a b : Str) (hp : p ≠ [])
    (h : ∀ i < a.length, ¬ p <+: (a ++ p ++ b).drop i) :
    replaceAll (a ++ p ++ b) p r = a ++ r ++ replaceAll b p r := by
  induction a with
  | nil =>
    simp only [List.nil_append]
    rw [replaceAll_pos p r (p ++ b) hp (List.prefix_append p b), List.drop_left]
  | cons c a2 ih =>
    have hshape : (c :: a2) ++ p ++ b = c :: (a2 ++ p ++ b) := by simp
    have h0 : ¬ p <+: c :: (a2 ++ p ++ b) := by
      have := h 0 (by simp)
      rw [List.drop_zero, hshape] at this
      exact this
    have hshift : ∀ i < a2.length, ¬ p <+: (a2 ++ p ++ b).drop i := by
      intro i hi
      have := h (i + 1) (by simpa using Nat.succ_lt_succ hi)
      rw [hshape, List.drop_succ_cons] at this
      exact this
    rw [hshape, replaceAll_neg p r c _ hp h0, ih hshift]
    simp

/-- Replacement over a prefix region containing no occurrence at all: the
region is copied verbatim and the scan continues past it. -/
theorem replaceAll_skip (p r m b : Str) (hp : p ≠ [])
    (h : ∀ i, p <+: (m ++ b).drop i → m.length ≤ i) :
    replaceAll (m ++ b) p r = m ++ replaceAll b p r := by
  induction m with
  | nil => simp
  | cons c m2 ih =>
    have h0 : ¬ p <+: c :: (m2 ++ b) := by
      intro hpre
      have := h 0 (by rw [List.drop_zero, List.cons_append]; exact hpre)
      simp at this
    have hshift : ∀ i, p <+: (m2 ++ b).drop i → m2.length ≤ i := by
      intro i hpre
      have h2 := h (i + 1) (by rw [List.cons_append, List.drop_succ_cons]; exact hpre)
      simp only [List.length_cons] at h2
      omega
    rw [List.cons_append, replaceAll_neg p r c _ hp h0, ih hshift, List.cons_append]

/-- Replacement around a protected middle region: if every occurrence of the
pattern lies entirely inside the left or the right region, the replacement
acts on those two regions independently and copies the middle verbatim. -/
theorem replaceAll_middle_aux (p r : Str) (hp : p ≠ []) :
    ∀ (n : Nat) (a m b : Str), a.length = n →
      (∀ i, p <+: (a ++ m ++ b).drop i →
        i + p.length ≤ a.length ∨ a.length + m.length ≤ i) →
      replaceAll (a ++ m ++ b) p r =
        replaceAll a p r ++ m ++ replaceAll b p r := by
  intro n
  induction n using Nat.strong_induction_on with
  | _ n ih =>
    intro a m b hn h
    have hp1 := length_pos_of_ne_nil p hp
    cases a with
    | nil =>
      have hskip : ∀ i, p <+: (m ++ b).drop i → m.length ≤ i := by
        intro i hpre
        rcases h i (by simpa using hpre) with h1 | h2
        · simp only [List.length_nil] at h1
          omega
        · simpa using h2
      simp only [List.nil_append]
      rw [replaceAll_skip p r m b hp hskip, replaceAll_nil]
      simp
    | cons c a2 =>
      by_cases hpre0 : p <+: (c :: a2) ++ m ++ b
      · have hdisj := h 0 (by rw [List.drop_zero]; exact hpre0)
        have hple : p.length ≤ (c :: a2).length := by
          rcases hdisj with h1 | h2
          · simpa using h1
          · simp only [List.length_cons] at h2
            omega
        have hpa : p <+: (c :: a2) := by
          refine List.prefix_of_prefix_length_le hpre0 ?_ hple
          rw [List.append_assoc]
          exact List.prefix_append _ _
        have hdrop : ((c :: a2) ++ m ++ b).drop p.length =
            ((c :: a2).drop p.length) ++ m ++ b := by
          rw [List.append_assoc, List.drop_append_of_le_length hple, List.append_assoc]
        have hlen2 : ((c :: a2).drop p.length).length < n := by
          rw [List.length_drop]
          simp only [List.length_cons]
          simp only [List.length_cons] at hn
          omega
        have hshift : ∀ i, p <+: (((c :: a2).drop p.length) ++ m ++ b).drop i →
            i + p.length ≤ ((c :: a2).drop p.length).length ∨
            ((c :: a2).drop p.length).length + m.length ≤ i := by
          intro i hpre
          have hdd : ((c :: a2) ++ m ++ b).drop (p.length + i) =
              (((c :: a2).drop p.length) ++ m ++ b).drop i := by
            rw [← List.drop_drop, hdrop]
          have h2 := h (p.length + i) (by rw [hdd]; exact hpre)
          rw [List.length_drop]
          rcases h2 with h3 | h3
          · left
            omega
          · right
            omega
        rw [replaceAll_pos p r _ hp hpre0, replaceAll_pos p r _ hp hpa, hdrop,
          ih ((c :: a2).drop p.length).length hlen2 _ m b rfl hshift]
        simp
      · have hshape : (c :: a2) ++ m ++ b = c :: (a2 ++ m ++ b) := by simp
        have h0 : ¬ p <+: c :: (a2 ++ m ++ b) := by rw [← hshape]; exact hpre0
        have hpa : ¬ p <+: (c :: a2) := by
          intro hc
          refine hpre0 (hc.trans ?_)
          rw [List.append_assoc]
          exact List.prefix_append _ _
        have hlt : a2.length < n := by
          simp only [List.length_cons] at hn
          omega
        have hshift : ∀ i, p <+: (a2 ++ m ++ b).drop i →
            i + p.length ≤ a2.length ∨ a2.length + m.length ≤ i := by
          intro i hpre
          have h2 := h (i + 1) (by rw [hshape, List.drop_succ_cons]; exact hpre)
          simp only [List.length_cons] at h2
          omega
        rw [hshape, replaceAll_neg p r c _ hp h0, replaceAll_neg p r c _ hp hpa,
          ih a2.length hlt a2 m b rfl hshift]
        simp

theorem replaceAll_middle (p r a m b : Str) (hp : p ≠ [])
    (h : ∀ i, p <+: (a ++ m ++ b).drop i →
      i + p.length ≤ a.length ∨ a.length + m.length ≤ i) :
    replaceAll (a ++ m ++ b) p r = replaceAll a p r ++ m ++ replaceAll b p r :=
  replaceAll_middle_aux p r hp a.length a m b rfl h

/-! ## C5: rewrite safety of the text rewriter -/

/-- C5 (amended): with keys `K1`, `K2` registered under labels `L1`, `L2`,
where `K1`'s textual encoding is a (strict) substring of `K2`'s, the rewriter
processes `K2` first (descending encoding length) and so a text containing an
occurrence of `K2`'s encoding has that occurrence replaced by `K2`'s primary
label `L2`, never partially rewritten through `K1`'s label — provided the
designated occurrence is the first occurrence of `K2`'s encoding, `K2`'s
encoding does not also occur in the tail, and no occurrence of `K1`'s encoding
overlaps the substituted label region (in particular `L2` itself must not
contain `K1`'s encoding: without that proviso the claim is false, see the
counterexample).  `K1`'s encoding elsewhere in the text is still rewritten to
`L1`, as the code intends. -/
theorem c5_rewrite_safety (K1 K2 : Pubkey) (L1 L2 : Str) (r1 r2 : AddressRole)
    (pre post : Str)
    (hkey : K1 ≠ K2) (hlab : L1 ≠ L2)
    (hk1ne : pubkeyToString K1 ≠ [])
    (_hsub : pubkeyToString K1 <:+: pubkeyToString K2)
    (hlen : (pubkeyToString K1).length < (pubkeyToString K2).length)
    (hfirst : ∀ i < pre.length,
      ¬ pubkeyToString K2 <+: (pre ++ pubkeyToString K2 ++ post).drop i)
    (hpost : ¬ pubkeyToString K2 <:+: post)
    (hmid : ∀ i < (pre ++ L2 ++ post).length,
      pubkeyToString K1 <+: (pre ++ L2 ++ post).drop i →
      i + (pubkeyToString K1).length ≤ pre.length ∨ pre.length + L2.length ≤ i) :
    (register (register AddressBook.empty K1 L1 r1).2 K2 L2 r2).2.replaceAddressesInText
        (pre ++ pubkeyToString K2 ++ post) =
      replaceAll pre (pubkeyToString K1) L1 ++ L2 ++
        replaceAll post (pubkeyToString K1) L1 := by
  have hK2ne : pubkeyToString K2 ≠ [] := by
    intro hz
    rw [hz] at hlen
    simp at hlen
  have hempty : alistGet AddressBook.empty.labels L1 = none := rfl
  have hb1a : (register AddressBook.empty K1 L1 r1).2.addresses =
      [(K1, [(L1, ⟨K1, r1⟩)])] := by
    rw [register, add_of_label_absent _ _ _ _ hempty]
    rfl
  have hb1l : (register AddressBook.empty K1 L1 r1).2.labels = [(L1, ⟨K1, r1⟩)] := by
    rw [register, add_of_label_absent _ _ _ _ hempty]
    rfl
  have hl2 : alistGet (register AddressBook.empty K1 L1 r1).2.labels L2 = none := by
    rw [hb1l]
    simp [alistGet, hlab]
  have hb2a : (register (register AddressBook.empty K1 L1 r1).2 K2 L2 r2).2.addresses =
      [(K1, [(L1, ⟨K1, r1⟩)]), (K2, [(L2, ⟨K2, r2⟩)])] := by
    rw [register, add_of_label_absent _ _ _ _ hl2]
    show pushEntry (register AddressBook.empty K1 L1 r1).2.addresses K2 (L2, ⟨K2, r2⟩) = _
    rw [hb1a]
    simp [pushEntry, hkey]
  have hsort : ((register (register AddressBook.empty K1 L1 r1).2 K2 L2 r2).2.addresses).insertionSort
        encLenGE = [(K2, [(L2, ⟨K2, r2⟩)]), (K1, [(L1, ⟨K1, r1⟩)])] := by
    rw [hb2a]
    simp only [List.insertionSort, List.orderedInsert]
    rw [if_neg (show ¬ encLenGE (K1, [(L1, ⟨K1, r1⟩)]) (K2, [(L2, ⟨K2, r2⟩)]) from
      Nat.not_le.2 hlen)]
  have hfold : (register (register AddressBook.empty K1 L1 r1).2 K2 L2 r2).2.replaceAddressesInText
      (pre ++ pubkeyToString K2 ++ post) =
      replaceAll (replaceAll (pre ++ pubkeyToString K2 ++ post) (pubkeyToString K2) L2)
        (pubkeyToString K1) L1 := by
    unfold AddressBook.replaceAddressesInText
    rw [hsort]
    rfl
  have hmid2 : ∀ i, pubkeyToString K1 <+: (pre ++ L2 ++ post).drop i →
      i + (pubkeyToString K1).length ≤ pre.length ∨ pre.length + L2.length ≤ i := by
    intro i hpre
    by_cases hi : i < (pre ++ L2 ++ post).length
    · exact hmid i hi hpre
    · exfalso
      have hdrop : (pre ++ L2 ++ post).drop i = [] := by
        rw [List.drop_eq_nil_iff]
        exact Nat.le_of_not_lt hi
      rw [hdrop] at hpre
      exact hk1ne (List.prefix_nil.1 hpre)
  rw [hfold, replaceAll_split _ _ _ _ hK2ne hfirst,
    replaceAll_of_not_infix _ _ _ hK2ne hpost]
  exact replaceAll_middle _ _ _ _ _ hk1ne hmid2

set_option maxRecDepth 8000 in
/-- Witness for C5 (amended): the two nested-encoding keys registered under
benign labels `"a"` and `"b"`, rewriting a text with `nestKeyLong`'s encoding
between two short fragments. -/
theorem c5_rewrite_safety_witness :
    (register (register AddressBook.empty nestKeyShort ['a'] .wallet).2
        nestKeyLong ['b'] .mint).2.replaceAddressesInText
        ("p ".data ++ pubkeyToString nestKeyLong ++ " q".data) =
      replaceAll "p ".data (pubkeyToString nestKeyShort) ['a'] ++ ['b'] ++
        replaceAll " q".data (pubkeyToString nestKeyShort) ['a'] :=
  c5_rewrite_safety nestKeyShort nestKeyLong ['a'] ['b'] .wallet .mint
    "p ".data " q".data (by decide) (by decide) (by decide) (by decide) (by decide)
    (by decide) (by decide) (by decide)

set_option maxRecDepth 8000 in
/-- Counterexample for C5 as stated: both keys are registered (both `register`
calls return `Ok`) and `nestKeyShort`'s encoding is a substring of
`nestKeyLong`'s, yet rewriting the text consisting exactly of `nestKeyLong`'s
encoding does not leave `nestKeyLong`'s primary label in place: that label
(the adversarial string equal to `nestKeyShort`'s encoding) is itself
rewritten in the later pass for `nestKeyShort`, so the whole occurrence ends
up as `nestKeyShort`'s label `"alice"`. -/
theorem c5_counterexample :
    pubkeyToString nestKeyShort <:+: pubkeyToString nestKeyLong ∧
    nestKeyShort ≠ nestKeyLong ∧
    (register AddressBook.empty nestKeyShort "alice".data .wallet).1 = .ok () ∧
    (register (register AddressBook.empty nestKeyShort "alice".data .wallet).2
        nestKeyLong (pubkeyToString nestKeyShort) .wallet).1 = .ok () ∧
    (register (register AddressBook.empty nestKeyShort "alice".data .wallet).2
        nestKeyLong (pubkeyToString nestKeyShort) .wallet).2.replaceAddressesInText
        (pubkeyToString nestKeyLong) = "alice".data ∧
    "alice".data ≠ pubkeyToString nestKeyShort := by
  refine ⟨by decide, by decide, rfl, rfl, by decide, by decide⟩
